import Mathlib

/-
Formal model of the Ceph perf-counter collector
(src/src/collectors/ceph/ceph.py): the perf-counter schema
interpretation and metric normalisation engine.  The source is Python 2
(it uses the builtin long), so integer division truncates toward
negative infinity and string sorting compares code points.
-/

namespace CephModel

/-- Values at the leaves of the JSON trees handed to the collector.  The
JSON decoder in the source keeps float-looking values as raw strings
(json.loads is called with an identity parse_float), so stats leaves are
integers or strings; rationals stand in for Python floats produced by
the later conversions. -/
inductive PyVal where
  | int (n : ℤ)
  | float (q : ℚ)
  | str (s : String)
deriving DecidableEq

/-- Python exception classes the modelled code can raise. -/
inductive PyErr where
  | keyError
  | typeError
  | valueError
  | attributeError
  | assertionError
  | indexError
  | conversionError
deriving DecidableEq

/-- Nested JSON mapping: interior nodes are dicts keyed by strings. -/
inductive NTree (α : Type) where
  | leaf (v : α)
  | node (children : List (String × NTree α))

/-- A Python dict, as the association list of its entries. -/
abbrev PyDict (α : Type) := List (String × NTree α)

mutual
/-- Structural size of a tree, used to bound recursion depth. -/
def treeSize : NTree α → ℕ
  | .leaf _ => 1
  | .node cs => 1 + dictSize cs
/-- Structural size of a dict, used to bound recursion depth. -/
def dictSize : List (String × NTree α) → ℕ
  | [] => 1
  | p :: rest => 1 + treeSize p.2 + dictSize rest
end

/-- Lexicographic comparison of char lists by code point: Python's
string ordering. -/
def charListLt : List Char → List Char → Bool
  | [], [] => false
  | [], _ :: _ => true
  | _ :: _, [] => false
  | a :: as, b :: bs => if a < b then true else if b < a then false else charListLt as bs

/-- Python string comparison a < b. -/
def strLt (a b : String) : Bool := charListLt a.toList b.toList

/-- Insert an entry into a key-sorted association list (helper of
sortByKey). -/
def insertByKey (x : String × β) : List (String × β) → List (String × β)
  | [] => [x]
  | y :: ys => if strLt x.1 y.1 then x :: y :: ys else y :: insertByKey x ys

/-- The sorted(input.items()) iteration order of a Python dict: entries
sorted by key. -/
def sortByKey (l : List (String × β)) : List (String × β) :=
  l.foldr insertByKey []

/-- Python dict subscription d[k] on an association list. -/
def dictGet (l : List (String × β)) (k : String) : Option β :=
  (l.find? fun p => p.1 == k).map Prod.snd

/-- Worker for flatten_dictionary.  The fuel only bounds the recursion
depth: any fuel of at least dictSize input computes the true value (see
flattenFuel_congr).  Mirrors the recursive generator in the source:
iterate the dict children in sorted key order, yield each leaf value
with its key path, and recurse into sub-dicts. -/
def flattenFuel (fuel : ℕ) (input : PyDict α) (path : List String) :
    List (List String × α) :=
  match fuel with
  | 0 => []
  | fuel + 1 =>
    (sortByKey input).flatMap fun p =>
      match p.2 with
      | .leaf v => [(path ++ [p.1], v)]
      | .node cs => flattenFuel fuel cs (path ++ [p.1])

/-- flatten_dictionary from the source (line 40): produces the (key
path, value) pair of every leaf, children visited in sorted key order.
dictSize input always exceeds the nesting depth, so the fuel never runs
out. -/
def flatten_dictionary (input : PyDict α) (path : List String) :
    List (List String × α) :=
  flattenFuel (dictSize input) input path

/-- Descend through the remaining path components from a subtree, d[c]
at each step: subscripting a leaf is a TypeError, a missing key a
KeyError. -/
def descend : NTree α → List String → Except PyErr (NTree α)
  | t, [] => .ok t
  | .node cs, c :: rest =>
    match dictGet cs c with
    | none => .error .keyError
    | some t => descend t rest
  | .leaf _, _ :: _ => .error .typeError

/-- lookup_dict_path from the source (line 61): follow path ++ extra
through the dict.  The source returns None when path ++ extra is empty
(modelled as ok none) and the element reached otherwise (ok (some t));
a leaf of the tree stands for the raw Python value stored there. -/
def lookup_dict_path (d : PyDict α) (path extra : List String) :
    Except PyErr (Option (NTree α)) :=
  match path ++ extra with
  | [] => .ok none
  | c :: rest =>
    match dictGet d c with
    | none => .error .keyError
    | some t => (descend t rest).map some

/-- Well-formedness check with fuel (see WFDict). -/
def wfFuel (fuel : ℕ) (d : PyDict α) : Bool :=
  match fuel with
  | 0 => false
  | fuel + 1 =>
    decide ((d.map Prod.fst).Nodup) &&
      d.all fun p =>
        match p.2 with
        | .leaf _ => true
        | .node cs => wfFuel fuel cs

/-- A dict tree is well-formed when the keys at every level are pairwise
distinct, which a Python dict guarantees. -/
def WFDict (d : PyDict α) : Prop := wfFuel (dictSize d) d = true

instance (d : PyDict α) : Decidable (WFDict d) :=
  inferInstanceAs (Decidable (wfFuel (dictSize d) d = true))

/-- Count of leaves of a dict tree (fuelled like flattenFuel). -/
def leafCountFuel (fuel : ℕ) (d : PyDict α) : ℕ :=
  match fuel with
  | 0 => 0
  | fuel + 1 =>
    (d.map fun p =>
      match p.2 with
      | .leaf _ => 1
      | .node cs => leafCountFuel fuel cs).sum

/-- Number of leaves of a dict tree. -/
def leafCount (d : PyDict α) : ℕ := leafCountFuel (dictSize d) d

/-- The element a lookup in the stats dict produces: None (for an empty
path) or the element reached; a leaf stands for the raw JSON value. -/
abbrev PyObj := Option (NTree PyVal)

/-- Wrap a plain Python value as a looked-up object. -/
def leafObj (v : PyVal) : PyObj := some (.leaf v)

/-- Python str.split(".") on the char list of a string. -/
def splitOnDot : List Char → List (List Char)
  | [] => [[]]
  | c :: rest =>
    if c = '.' then [] :: splitOnDot rest
    else
      match splitOnDot rest with
      | [] => [[c]]
      | p :: ps => (c :: p) :: ps

/-- Strip leading and trailing whitespace, as Python integer parsing
does. -/
def stripWS (l : List Char) : List Char :=
  ((l.dropWhile Char.isWhitespace).reverse.dropWhile Char.isWhitespace).reverse

/-- Parse a nonempty all-digit char list as a natural number. -/
def parseDigits (l : List Char) : Option ℕ :=
  if l ≠ [] ∧ l.all Char.isDigit then
    some (l.foldl (fun a c => a * 10 + (c.toNat - 48)) 0)
  else none

/-- Python 2 long(string): optional surrounding whitespace, an optional
sign, then one or more digits. -/
def pyLong (l : List Char) : Option ℤ :=
  match stripWS l with
  | '-' :: rest => (parseDigits rest).map fun n => -(n : ℤ)
  | '+' :: rest => (parseDigits rest).map fun n => (n : ℤ)
  | t => (parseDigits t).map fun n => (n : ℤ)

/-- The constant _NSEC_PER_SEC of the source. -/
def nsecPerSec : ℕ := 1000000000

/-- _ceph_time_to_seconds from the source (line 172): split the raw
string on "." into exactly two integers sec and nsec via long(), and
return float(sec * _NSEC_PER_SEC + nsec) / float(_NSEC_PER_SEC); the
integer arithmetic is exact in ℚ.  A non-string has no split method
(AttributeError); a wrong number of components or a component long()
rejects raises ValueError, exactly as the Python tuple unpacking of
map(long, val.split(".")) does. -/
def ceph_time_to_seconds (val : PyObj) : Except PyErr ℚ :=
  match val with
  | some (.leaf (.str s)) =>
    match (splitOnDot s.toList).map pyLong with
    | [some sec, some nsec] =>
      .ok (((sec * (nsecPerSec : ℤ) + nsec : ℤ) : ℚ) / (nsecPerSec : ℚ))
    | _ => .error .valueError
  | _ => .error .attributeError

/-- Python str.replace("bytes", rep): replace every occurrence of
"bytes", scanning left to right. -/
def replaceBytesChars (rep : List Char) : List Char → List Char
  | 'b' :: 'y' :: 't' :: 'e' :: 's' :: rest => rep ++ replaceBytesChars rep rest
  | c :: rest => c :: replaceBytesChars rep rest
  | [] => []

/-- name.replace("bytes", unit) from the source (line 199). -/
def replace_bytes (name unit : String) : String :=
  String.mk (replaceBytesChars unit.toList name.toList)

/-- Python name.endswith("bytes"). -/
def endsWithBytes (name : String) : Bool :=
  "bytes".toList.isSuffixOf name.toList

/-- Python "sep".join(parts). -/
def pyJoin (sep : String) : List String → String
  | [] => ""
  | [x] => x
  | x :: xs => x ++ sep ++ pyJoin sep xs

/-- The name-building expression _PATH_SEP.join(filter(None, [pfx] +
path)) of the source: join the non-empty components with ".". -/
def buildName (pfx : String) (path : List String) : String :=
  pyJoin "." ((pfx :: path).filter fun s => s != "")

/-- Modelled from the spec: the unit table of
diamond.convertor.binary.convert is not under src/; spec sections 4.4
and 6 fix it as standard binary scaling by powers of 1024 for the unit
symbols byte, kilobyte, megabyte, gigabyte, and so on. -/
def binaryUnitExponent : String → Option ℕ
  | "byte" => some 0
  | "kilobyte" => some 1
  | "megabyte" => some 2
  | "gigabyte" => some 3
  | "terabyte" => some 4
  | "petabyte" => some 5
  | "exabyte" => some 6
  | "zettabyte" => some 7
  | "yottabyte" => some 8
  | _ => none

/-- Numeric value of a Python value, when it is a number. -/
def toRat : PyVal → Option ℚ
  | .int n => some (n : ℚ)
  | .float q => some q
  | .str _ => none

/-- Modelled from the spec: diamond.convertor.binary.convert(value,
oldUnit byte, newUnit unit) scales a byte count by a power of 1024 and
yields a float; a non-numeric value is a TypeError of the arithmetic,
an unknown unit an error of the convertor. -/
def binary_convert (value : PyObj) (unit : String) : Except PyErr PyVal :=
  match value with
  | some (.leaf v) =>
    match toRat v, binaryUnitExponent unit with
    | some q, some e => .ok (.float (q / 1024 ^ e))
    | some _, none => .error .conversionError
    | none, _ => .error .typeError
  | _ => .error .typeError

/-- Build a list through an effectful map, stopping at the first error:
the shape of the result-appending loops in the source. -/
def mapExcept (f : α → Except PyErr β) : List α → Except PyErr (List β)
  | [] => .ok []
  | x :: xs =>
    match f x with
    | .error e => .error e
    | .ok y =>
      match mapExcept f xs with
      | .error e => .error e
      | .ok ys => .ok (y :: ys)

/-- _get_byte_metrics from the source (line 184): assert that the name
ends with "bytes", then for each configured unit in order append the
pair (name with "bytes" replaced by the unit symbol, value converted to
that unit). -/
def get_byte_metrics (byte_unit : List String) (name : String)
    (metric_value : PyObj) : Except PyErr (List (String × PyVal)) :=
  if endsWithBytes name then
    mapExcept (fun unit =>
      (binary_convert metric_value unit).map fun v =>
        (replace_bytes name unit, v)) byte_unit
  else .error .assertionError

/-- Python truthiness of a looked-up object: None and empty containers
and zero are falsy. -/
def pyTruthy : PyObj → Bool
  | none => false
  | some (.leaf (.int n)) => n != 0
  | some (.leaf (.float q)) => q != 0
  | some (.leaf (.str s)) => s != ""
  | some (.node cs) => !cs.isEmpty

/-- Python 2 division of looked-up objects: long / long is floor
division (the source predates true division), any float operand gives
exact float division, anything else is a TypeError. -/
def pyDiv (a b : PyObj) : Except PyErr PyVal :=
  match a, b with
  | some (.leaf (.int m)), some (.leaf (.int n)) => .ok (.int (Int.fdiv m n))
  | some (.leaf (.int m)), some (.leaf (.float q)) => .ok (.float ((m : ℚ) / q))
  | some (.leaf (.float p)), some (.leaf (.int n)) => .ok (.float (p / (n : ℚ)))
  | some (.leaf (.float p)), some (.leaf (.float q)) => .ok (.float (p / q))
  | _, _ => .error .typeError

/-- The line average = sum / count if count else 0.0 of the source
(line 225). -/
def longrunavg_average (sum count : PyObj) : Except PyErr PyVal :=
  if pyTruthy count then pyDiv sum count else .ok (.float 0)

/-- Bitmask flag _PERFCOUNTER_TIME of the source. -/
def PERFCOUNTER_TIME : ℕ := 1

/-- Bitmask flag _PERFCOUNTER_U64 of the source. -/
def PERFCOUNTER_U64 : ℕ := 2

/-- Bitmask flag _PERFCOUNTER_LONGRUNAVG of the source. -/
def PERFCOUNTER_LONGRUNAVG : ℕ := 4

/-- Bitmask flag _PERFCOUNTER_COUNTER of the source. -/
def PERFCOUNTER_COUNTER : ℕ := 8

/-- An emitted metric: a publish_gauge or publish_counter call with its
(name, value, precision) arguments. -/
inductive Metric where
  | gauge (name : String) (value : PyObj) (precision : ℕ)
  | counter (name : String) (value : PyObj) (precision : ℕ)

/-- True exactly for counter emissions. -/
def Metric.isCounter : Metric → Bool
  | .gauge _ _ _ => false
  | .counter _ _ _ => true

/-- What interpretation produces: the emitted metrics and the log.error
lines, in order. -/
structure Output where
  metrics : List Metric
  logs : List String

instance : Append Output :=
  ⟨fun a b => ⟨a.metrics ++ b.metrics, a.logs ++ b.logs⟩⟩

/-- _publish_longrunavg from the source (line 203), as the output it
publishes.  path is the metric path with the trailing type marker
already removed; ty the schema bitmask.  Steps, in source order: look
up sum and avgcount under path, convert sum with the time codec when
the TIME bit is set, compute the average (0.0 for a falsy count),
rename the trailing path segment to avg_<original>, then emit one
gauge at 6 decimals (TIME), the byte-unit gauges or a single gauge at 2
decimals (U64), or log and skip. -/
def publish_longrunavg (byte_unit : List String) (pfx : String)
    (stats : PyDict PyVal) (path : List String) (ty : ℕ) :
    Except PyErr Output :=
  match lookup_dict_path stats path ["sum"] with
  | .error e => .error e
  | .ok sum0 =>
  match lookup_dict_path stats path ["avgcount"] with
  | .error e => .error e
  | .ok count =>
  match (if ty &&& PERFCOUNTER_TIME ≠ 0 then
           (ceph_time_to_seconds sum0).map fun q => leafObj (.float q)
         else .ok sum0) with
  | .error e => .error e
  | .ok sum =>
  match longrunavg_average sum count with
  | .error e => .error e
  | .ok average =>
  match path.getLast? with
  | none => .error .indexError
  | some last =>
    if ty &&& PERFCOUNTER_TIME ≠ 0 then
      .ok ⟨[.gauge (buildName pfx (path.dropLast ++ ["avg_" ++ last]))
              (leafObj average) 6], []⟩
    else if ty &&& PERFCOUNTER_U64 ≠ 0 then
      match (if endsWithBytes (buildName pfx (path.dropLast ++ ["avg_" ++ last])) then
               get_byte_metrics byte_unit
                 (buildName pfx (path.dropLast ++ ["avg_" ++ last])) (leafObj average)
             else .ok [(buildName pfx (path.dropLast ++ ["avg_" ++ last]), average)]) with
      | .error e => .error e
      | .ok values =>
        .ok ⟨values.map fun p => .gauge p.1 (leafObj p.2) 2, []⟩
    else
      .ok ⟨[], ["Unexpected metric type: " ++
        buildName pfx (path.dropLast ++ ["avg_" ++ last]) ++ "/" ++ toString ty]⟩

/-- Body of the loop of _publish_stats from the source (line 254) for
one flattened schema entry (path0, ty): assert the trailing type
marker and strip it, dispatch to the long-running-average rule when
the LONGRUNAVG bit is set, otherwise look the single value up and emit
per the TIME / U64 / COUNTER bits, or log and skip. -/
def publish_stats_leaf (byte_unit : List String) (pfx : String)
    (stats : PyDict PyVal) (path0 : List String) (ty : ℕ) :
    Except PyErr Output :=
  if path0.getLast? = some "type" then
    if ty &&& PERFCOUNTER_LONGRUNAVG ≠ 0 then
      publish_longrunavg byte_unit pfx stats path0.dropLast ty
    else
      match lookup_dict_path stats path0.dropLast [] with
      | .error e => .error e
      | .ok value =>
        if ty &&& PERFCOUNTER_TIME ≠ 0 then
          match ceph_time_to_seconds value with
          | .error e => .error e
          | .ok q =>
            .ok ⟨[.gauge (buildName pfx path0.dropLast) (leafObj (.float q)) 6], []⟩
        else if ty &&& PERFCOUNTER_U64 ≠ 0 then
          match (if endsWithBytes (buildName pfx path0.dropLast) then
                   (get_byte_metrics byte_unit (buildName pfx path0.dropLast) value).map
                     (List.map fun p => (p.1, leafObj p.2))
                 else .ok [(buildName pfx path0.dropLast, value)]) with
          | .error e => .error e
          | .ok values =>
            .ok ⟨values.map fun p =>
                  if ty &&& PERFCOUNTER_COUNTER ≠ 0 then .counter p.1 p.2 2
                  else .gauge p.1 p.2 2, []⟩
        else
          .ok ⟨[], ["Unexpected metric type: " ++ buildName pfx path0.dropLast ++
            "/" ++ toString ty]⟩
  else .error .assertionError

/-- Run the loop of _publish_stats over the flattened schema entries in
order.  Each entry publishes atomically (inside one entry every
conversion precedes every publish call in the source), and an uncaught
exception stops the loop: the result is everything published so far
plus the pending exception, if any. -/
def processLeaves (byte_unit : List String) (pfx : String)
    (stats : PyDict PyVal) : List (List String × ℕ) → Output × Option PyErr
  | [] => (⟨[], []⟩, none)
  | (path, ty) :: rest =>
    match publish_stats_leaf byte_unit pfx stats path ty with
    | .error e => (⟨[], []⟩, some e)
    | .ok o1 =>
      let r := processLeaves byte_unit pfx stats rest
      (o1 ++ r.1, r.2)

/-- _publish_stats from the source (line 246): flatten the schema and
interpret every leaf in order. -/
def publish_stats (byte_unit : List String) (pfx : String)
    (stats : PyDict PyVal) (schema : PyDict ℕ) : Output × Option PyErr :=
  processLeaves byte_unit pfx stats (flatten_dictionary schema [])

/-! Lemmas about the string order and the sorted iteration order. -/

theorem charListLt_iff (as bs : List Char) :
    charListLt as bs = true ↔ List.Lex (· < ·) as bs := by
  induction as generalizing bs with
  | nil =>
    cases bs with
    | nil =>
      constructor
      · intro h; exact (Bool.false_ne_true h).elim
      · intro h; cases h
    | cons b bs =>
      constructor
      · intro _; exact List.Lex.nil
      · intro _; rfl
  | cons a as ih =>
    cases bs with
    | nil =>
      constructor
      · intro h; exact (Bool.false_ne_true h).elim
      · intro h; cases h
    | cons b bs =>
      show (if a < b then true else if b < a then false else charListLt as bs) = true ↔ _
      by_cases hab : a < b
      · rw [if_pos hab]
        constructor
        · intro _; exact List.Lex.rel hab
        · intro _; rfl
      · rw [if_neg hab]
        by_cases hba : b < a
        · rw [if_pos hba]
          constructor
          · intro h; exact (Bool.false_ne_true h).elim
          · intro h
            cases h with
            | rel h' => exact absurd h' hab
            | cons h' => exact absurd hba (lt_irrefl a)
        · rw [if_neg hba]
          have hEq : a = b := le_antisymm (not_lt.mp hba) (not_lt.mp hab)
          subst hEq
          rw [ih bs]
          constructor
          · exact List.Lex.cons
          · intro h
            cases h with
            | rel h' => exact absurd h' (lt_irrefl a)
            | cons h' => exact h'

theorem strLt_iff (a b : String) : strLt a b = true ↔ a < b := by
  rw [strLt, charListLt_iff, String.lt_iff_toList_lt]
  exact Iff.rfl

theorem strLt_eq_false_iff (a b : String) : strLt a b = false ↔ b ≤ a := by
  rw [← Bool.not_eq_true, strLt_iff, not_lt]

theorem insertByKey_perm (x : String × β) (l : List (String × β)) :
    (insertByKey x l).Perm (x :: l) := by
  induction l with
  | nil => exact List.Perm.refl _
  | cons y ys ih =>
    simp only [insertByKey]
    split
    · exact List.Perm.refl _
    · exact (ih.cons y).trans (List.Perm.swap x y ys)

theorem sortByKey_perm (l : List (String × β)) : (sortByKey l).Perm l := by
  induction l with
  | nil => exact List.Perm.refl _
  | cons x xs ih =>
    simp only [sortByKey, List.foldr_cons]
    exact (insertByKey_perm x _).trans (ih.cons x)

theorem mem_sortByKey {l : List (String × β)} {p : String × β} :
    p ∈ sortByKey l ↔ p ∈ l :=
  (sortByKey_perm l).mem_iff

theorem insertByKey_pairwise {x : String × β} {l : List (String × β)}
    (h : l.Pairwise fun a b => a.1 ≤ b.1) :
    (insertByKey x l).Pairwise fun a b => a.1 ≤ b.1 := by
  induction l with
  | nil => simp [insertByKey]
  | cons y ys ih =>
    simp only [insertByKey]
    split
    case isTrue hxy =>
      have hxy' : x.1 < y.1 := (strLt_iff _ _).mp hxy
      refine List.Pairwise.cons ?_ h
      intro z hz
      rcases List.mem_cons.mp hz with rfl | hz'
      · exact le_of_lt hxy'
      · exact (le_of_lt hxy').trans (List.rel_of_pairwise_cons h hz')
    case isFalse hxy =>
      have hyx : y.1 ≤ x.1 := by
        rw [← strLt_eq_false_iff]
        exact eq_false_of_ne_true hxy
      refine List.Pairwise.cons ?_ (ih (List.Pairwise.of_cons h))
      intro z hz
      rcases List.mem_cons.mp ((insertByKey_perm x ys).mem_iff.mp hz) with rfl | hz'
      · exact hyx
      · exact List.rel_of_pairwise_cons h hz'

theorem sortByKey_pairwise (l : List (String × β)) :
    (sortByKey l).Pairwise fun a b => a.1 ≤ b.1 := by
  induction l with
  | nil => simp [sortByKey]
  | cons x xs ih =>
    simp only [sortByKey, List.foldr_cons]
    exact insertByKey_pairwise ih

theorem sortByKey_pairwise_lt {l : List (String × β)}
    (hnd : (l.map Prod.fst).Nodup) :
    (sortByKey l).Pairwise fun a b => a.1 < b.1 := by
  have h1 := sortByKey_pairwise l
  have hperm : ((sortByKey l).map Prod.fst).Perm (l.map Prod.fst) :=
    (sortByKey_perm l).map _
  have hnd' : ((sortByKey l).map Prod.fst).Nodup := hperm.nodup_iff.mpr hnd
  have hne : (sortByKey l).Pairwise fun a b => a.1 ≠ b.1 :=
    List.pairwise_map.mp hnd'
  exact (h1.and hne).imp fun h => lt_of_le_of_ne h.1 h.2

theorem dictGet_eq_some {d : List (String × β)}
    (hnd : (d.map Prod.fst).Nodup) {k : String} {v : β} (h : (k, v) ∈ d) :
    dictGet d k = some v := by
  induction d with
  | nil => cases h
  | cons q rest ih =>
    have hnd' : q.1 ∉ rest.map Prod.fst ∧ (rest.map Prod.fst).Nodup := by
      rw [List.map_cons, List.nodup_cons] at hnd
      exact hnd
    by_cases hq : q.1 = k
    · have hqv : q = (k, v) := by
        rcases List.mem_cons.mp h with h' | h'
        · exact h'.symm
        · exfalso
          refine hnd'.1 ?_
          rw [hq]
          exact List.mem_map_of_mem Prod.fst h'
      simp [dictGet, List.find?_cons, hq, hqv]
    · have hmem : (k, v) ∈ rest := by
        rcases List.mem_cons.mp h with h' | h'
        · exact absurd (congrArg Prod.fst h'.symm) hq
        · exact h'
      have hrec : dictGet rest k = some v := ih hnd'.2 hmem
      simpa [dictGet, List.find?_cons, hq] using hrec

/-! Size bounds and fuel congruence. -/

theorem dictSize_pos (d : PyDict α) : 1 ≤ dictSize d := by
  cases d with
  | nil => simp [dictSize]
  | cons p rest => simp [dictSize]; omega

theorem treeSize_lt_of_mem {d : PyDict α} {p : String × NTree α}
    (h : p ∈ d) : treeSize p.2 < dictSize d := by
  induction d with
  | nil => cases h
  | cons q rest ih =>
    rcases List.mem_cons.mp h with rfl | h'
    · simp [dictSize]; omega
    · have := ih h'
      simp [dictSize]; omega

theorem dictSize_lt_of_node_mem {d : PyDict α} {k : String}
    {cs : PyDict α} (h : (k, NTree.node cs) ∈ d) :
    dictSize cs < dictSize d := by
  have := treeSize_lt_of_mem h
  simp only [treeSize] at this
  omega

theorem flatMapCongr {l : List γ} {f g : γ → List δ}
    (h : ∀ x ∈ l, f x = g x) : l.flatMap f = l.flatMap g := by
  induction l with
  | nil => rfl
  | cons x xs ih =>
    simp only [List.flatMap_cons]
    rw [h x (List.mem_cons_self x xs), ih fun y hy => h y (List.mem_cons_of_mem x hy)]

theorem allCongr {l : List γ} {f g : γ → Bool}
    (h : ∀ x ∈ l, f x = g x) : l.all f = l.all g := by
  induction l with
  | nil => rfl
  | cons x xs ih =>
    simp only [List.all_cons]
    rw [h x (List.mem_cons_self x xs), ih fun y hy => h y (List.mem_cons_of_mem x hy)]

theorem flattenFuel_congr :
    ∀ {f₁ f₂ : ℕ} {input : PyDict α} {path : List String},
      dictSize input ≤ f₁ → dictSize input ≤ f₂ →
      flattenFuel f₁ input path = flattenFuel f₂ input path := by
  intro f₁
  induction f₁ with
  | zero =>
    intro f₂ input path h₁ _
    exact absurd h₁ (by have := dictSize_pos input; omega)
  | succ f₁ ih =>
    intro f₂ input path h₁ h₂
    cases f₂ with
    | zero => exact absurd h₂ (by have := dictSize_pos input; omega)
    | succ f₂ =>
      simp only [flattenFuel]
      refine flatMapCongr ?_
      intro p hp
      have hpmem : p ∈ input := mem_sortByKey.mp hp
      cases hp2 : p.2 with
      | leaf v => rfl
      | node cs =>
        have hlt : dictSize cs < dictSize input :=
          dictSize_lt_of_node_mem (by rw [← hp2]; exact (by simpa using hpmem))
        exact ih (by omega) (by omega)

theorem flatten_eq (input : PyDict α) (path : List String) :
    flatten_dictionary input path =
      (sortByKey input).flatMap fun p =>
        match p.2 with
        | .leaf v => [(path ++ [p.1], v)]
        | .node cs => flatten_dictionary cs (path ++ [p.1]) := by
  unfold flatten_dictionary
  obtain ⟨f, hf⟩ : ∃ f, dictSize input = f + 1 :=
    ⟨dictSize input - 1, by have := dictSize_pos input; omega⟩
  rw [hf]
  simp only [flattenFuel]
  refine flatMapCongr ?_
  intro p hp
  have hpmem : p ∈ input := mem_sortByKey.mp hp
  cases hp2 : p.2 with
  | leaf v => rfl
  | node cs =>
    have hlt : dictSize cs < dictSize input :=
      dictSize_lt_of_node_mem (by rw [← hp2]; exact (by simpa using hpmem))
    exact flattenFuel_congr (by omega) (le_refl _)

theorem wfFuel_congr :
    ∀ {f₁ f₂ : ℕ} {d : PyDict α},
      dictSize d ≤ f₁ → dictSize d ≤ f₂ → wfFuel f₁ d = wfFuel f₂ d := by
  intro f₁
  induction f₁ with
  | zero =>
    intro f₂ d h₁ _
    exact absurd h₁ (by have := dictSize_pos d; omega)
  | succ f₁ ih =>
    intro f₂ d h₁ h₂
    cases f₂ with
    | zero => exact absurd h₂ (by have := dictSize_pos d; omega)
    | succ f₂ =>
      simp only [wfFuel]
      congr 1
      refine allCongr ?_
      intro p hp
      cases hp2 : p.2 with
      | leaf v => rfl
      | node cs =>
        have hlt : dictSize cs < dictSize d :=
          dictSize_lt_of_node_mem (by rw [← hp2]; exact hp)
        exact ih (by omega) (by omega)

theorem WFDict_iff (d : PyDict α) :
    WFDict d ↔ (d.map Prod.fst).Nodup ∧
      ∀ p ∈ d, ∀ cs, p.2 = NTree.node cs → WFDict cs := by
  unfold WFDict
  obtain ⟨f, hf⟩ : ∃ f, dictSize d = f + 1 :=
    ⟨dictSize d - 1, by have := dictSize_pos d; omega⟩
  rw [hf]
  simp only [wfFuel, Bool.and_eq_true, decide_eq_true_eq, List.all_eq_true]
  constructor
  · rintro ⟨hnd, hall⟩
    refine ⟨hnd, ?_⟩
    intro p hp cs hcs
    have h3 := hall p hp
    rw [hcs] at h3
    have h2 : wfFuel f cs = true := h3
    have hlt : dictSize cs < dictSize d :=
      dictSize_lt_of_node_mem (by rw [← hcs]; exact hp)
    show wfFuel (dictSize cs) cs = true
    rw [@wfFuel_congr _ (dictSize cs) f cs (le_refl _) (by omega)]
    exact h2
  · rintro ⟨hnd, hall⟩
    refine ⟨hnd, ?_⟩
    intro p hp
    cases hp2 : p.2 with
    | leaf v => rfl
    | node cs =>
      show wfFuel f cs = true
      have hlt : dictSize cs < dictSize d :=
        dictSize_lt_of_node_mem (by rw [← hp2]; exact hp)
      rw [@wfFuel_congr _ f (dictSize cs) cs (by omega) (le_refl _)]
      exact hall p hp cs hp2

/-! Structure of the flattened sequence. -/

theorem mapCongrFn {l : List γ} {f g : γ → δ}
    (h : ∀ x ∈ l, f x = g x) : l.map f = l.map g := by
  induction l with
  | nil => rfl
  | cons x xs ih =>
    simp only [List.map_cons]
    rw [h x (List.mem_cons_self x xs), ih fun y hy => h y (List.mem_cons_of_mem x hy)]

theorem flatten_shift_aux :
    ∀ (n : ℕ) (d : PyDict α), dictSize d ≤ n → ∀ path : List String,
      flatten_dictionary d path =
        (flatten_dictionary d []).map fun q => (path ++ q.1, q.2) := by
  intro n
  induction n with
  | zero =>
    intro d h
    exact absurd h (by have := dictSize_pos d; omega)
  | succ n ih =>
    intro d h path
    rw [flatten_eq, flatten_eq d []]
    rw [List.map_flatMap]
    refine flatMapCongr ?_
    intro p hp
    have hpmem : p ∈ d := mem_sortByKey.mp hp
    cases hp2 : p.2 with
    | leaf v => simp
    | node cs =>
      have hlt : dictSize cs < dictSize d :=
        dictSize_lt_of_node_mem (by rw [← hp2]; exact hpmem)
      show flatten_dictionary cs (path ++ [p.1]) =
        (flatten_dictionary cs ([] ++ [p.1])).map fun q => (path ++ q.1, q.2)
      rw [ih cs (by omega) (path ++ [p.1]), ih cs (by omega) ([] ++ [p.1])]
      simp [List.map_map, Function.comp_def]

theorem flatten_shift (d : PyDict α) (path : List String) :
    flatten_dictionary d path =
      (flatten_dictionary d []).map fun q => (path ++ q.1, q.2) :=
  flatten_shift_aux (dictSize d) d (le_refl _) path

theorem lookup_cons_eq_descend (d : PyDict α) (c : String) (rest : List String) :
    lookup_dict_path d (c :: rest) [] = (descend (NTree.node d) (c :: rest)).map some := by
  simp only [lookup_dict_path, List.append_nil]
  cases hdg : dictGet d c with
  | none => simp [descend, hdg, Except.map]
  | some t => simp [descend, hdg]

theorem flatten_lookup_aux :
    ∀ (n : ℕ) (d : PyDict α), dictSize d ≤ n → WFDict d →
      ∀ p ∈ flatten_dictionary d ([] : List String),
        lookup_dict_path d p.1 [] = .ok (some (.leaf p.2)) := by
  intro n
  induction n with
  | zero =>
    intro d h
    exact absurd h (by have := dictSize_pos d; omega)
  | succ n ih =>
    intro d h hwf p hp
    obtain ⟨hnd, hrec⟩ := (WFDict_iff d).mp hwf
    rw [flatten_eq] at hp
    obtain ⟨a, ha, hpa⟩ := List.mem_flatMap.mp hp
    have hamem : a ∈ d := mem_sortByKey.mp ha
    cases ha2 : a.2 with
    | leaf v =>
      rw [ha2] at hpa
      have hpa' : p = ([a.1], v) := by
        have hsing : p ∈ [(([] : List String) ++ [a.1], v)] := hpa
        simpa using hsing
      subst hpa'
      have hget : dictGet d a.1 = some (.leaf v) :=
        dictGet_eq_some hnd (by rw [← ha2]; exact hamem)
      rw [lookup_cons_eq_descend d a.1 []]
      simp [descend, hget, Except.map]
    | node cs =>
      rw [ha2] at hpa
      have hlt : dictSize cs < dictSize d :=
        dictSize_lt_of_node_mem (by rw [← ha2]; exact hamem)
      have hwfcs : WFDict cs := hrec a hamem cs ha2
      have hpa' : p ∈ (flatten_dictionary cs []).map fun q => ([a.1] ++ q.1, q.2) := by
        have hmem : p ∈ flatten_dictionary cs [a.1] := hpa
        rwa [flatten_shift cs [a.1]] at hmem
      obtain ⟨q, hq, hpq⟩ := List.mem_map.mp hpa'
      have hihq := ih cs (by omega) hwfcs q hq
      have hget : dictGet d a.1 = some (.node cs) :=
        dictGet_eq_some hnd (by rw [← ha2]; exact hamem)
      subst hpq
      show lookup_dict_path d (a.1 :: q.1) [] = Except.ok (some (NTree.leaf q.2))
      cases hq1 : q.1 with
      | nil =>
        rw [hq1] at hihq
        exact absurd hihq (by simp [lookup_dict_path])
      | cons c rest =>
        rw [hq1] at hihq
        rw [lookup_cons_eq_descend cs c rest] at hihq
        rw [lookup_cons_eq_descend d a.1 (c :: rest)]
        have hstep : descend (NTree.node d) (a.1 :: c :: rest) = descend (NTree.node cs) (c :: rest) := by
          simp [descend, hget]
        rw [hstep]
        exact hihq

theorem flatten_lookup {d : PyDict α} (hwf : WFDict d) {p : List String × α}
    (hp : p ∈ flatten_dictionary d ([] : List String)) :
    lookup_dict_path d p.1 [] = .ok (some (.leaf p.2)) :=
  flatten_lookup_aux (dictSize d) d (le_refl _) hwf p hp

theorem lex_append {p x y : List String}
    (h : List.Lex (· < ·) x y) : List.Lex (· < ·) (p ++ x) (p ++ y) := by
  induction p with
  | nil => exact h
  | cons c p ih => exact List.Lex.cons ih

theorem flatten_mem_append :
    ∀ (n : ℕ) (d : PyDict α), dictSize d ≤ n → ∀ (path : List String)
      (p : List String × α), p ∈ flatten_dictionary d path →
      ∃ rest, p.1 = path ++ rest := by
  intro n
  induction n with
  | zero =>
    intro d h
    exact absurd h (by have := dictSize_pos d; omega)
  | succ n ih =>
    intro d h path p hp
    rw [flatten_eq] at hp
    obtain ⟨a, ha, hpa⟩ := List.mem_flatMap.mp hp
    have hamem : a ∈ d := mem_sortByKey.mp ha
    cases ha2 : a.2 with
    | leaf v =>
      rw [ha2] at hpa
      have hpa' : p = (path ++ [a.1], v) := by
        have hsing : p ∈ [(path ++ [a.1], v)] := hpa
        simpa using hsing
      exact ⟨[a.1], by rw [hpa']⟩
    | node cs =>
      rw [ha2] at hpa
      have hlt : dictSize cs < dictSize d :=
        dictSize_lt_of_node_mem (by rw [← ha2]; exact hamem)
      have hmem : p ∈ flatten_dictionary cs (path ++ [a.1]) := hpa
      obtain ⟨rest, hrest⟩ := ih cs (by omega) (path ++ [a.1]) p hmem
      exact ⟨a.1 :: rest, by rw [hrest]; simp⟩

theorem flatten_sorted_aux :
    ∀ (n : ℕ) (d : PyDict α), dictSize d ≤ n → WFDict d →
      ∀ path : List String,
        ((flatten_dictionary d path).map Prod.fst).Pairwise (List.Lex (· < ·)) := by
  intro n
  induction n with
  | zero =>
    intro d h
    exact absurd h (by have := dictSize_pos d; omega)
  | succ n ih =>
    intro d h hwf path
    obtain ⟨hnd, hrec⟩ := (WFDict_iff d).mp hwf
    rw [flatten_eq, List.map_flatMap, List.pairwise_flatMap]
    constructor
    · intro a ha
      have hamem : a ∈ d := mem_sortByKey.mp ha
      cases ha2 : a.2 with
      | leaf v => simp
      | node cs =>
        have hlt : dictSize cs < dictSize d :=
          dictSize_lt_of_node_mem (by rw [← ha2]; exact hamem)
        have hwfcs : WFDict cs := hrec a hamem cs ha2
        exact ih cs (by omega) hwfcs (path ++ [a.1])
    · have hkeys := sortByKey_pairwise_lt hnd
      refine hkeys.imp ?_
      intro a₁ a₂ h12 x hx y hy
      have hshape : ∀ (a : String × NTree α), ∀ z ∈
          (match a.2 with
           | NTree.leaf v => [(path ++ [a.1], v)]
           | NTree.node cs => flatten_dictionary cs (path ++ [a.1])).map
            (Prod.fst (α := List String) (β := α)),
          ∃ rest, z = path ++ a.1 :: rest := by
        intro a z hz
        obtain ⟨w, hw, hwz⟩ := List.mem_map.mp hz
        cases ha2 : a.2 with
        | leaf v =>
          rw [ha2] at hw
          have hw' : w = (path ++ [a.1], v) := by
            have hsing : w ∈ [(path ++ [a.1], v)] := hw
            simpa using hsing
          exact ⟨[], by rw [← hwz, hw']⟩
        | node cs =>
          rw [ha2] at hw
          have hmem : w ∈ flatten_dictionary cs (path ++ [a.1]) := hw
          obtain ⟨rest, hrest⟩ :=
            flatten_mem_append (dictSize cs) cs (le_refl _) (path ++ [a.1]) w hmem
          refine ⟨rest, ?_⟩
          rw [← hwz, hrest]
          simp
      obtain ⟨r₁, hr₁⟩ := hshape a₁ x hx
      obtain ⟨r₂, hr₂⟩ := hshape a₂ y hy
      rw [hr₁, hr₂]
      exact lex_append (List.Lex.rel h12)

theorem flatten_sorted {d : PyDict α} (hwf : WFDict d) (path : List String) :
    ((flatten_dictionary d path).map Prod.fst).Pairwise (List.Lex (· < ·)) :=
  flatten_sorted_aux (dictSize d) d (le_refl _) hwf path

theorem leafCountFuel_congr :
    ∀ {f₁ f₂ : ℕ} {d : PyDict α},
      dictSize d ≤ f₁ → dictSize d ≤ f₂ → leafCountFuel f₁ d = leafCountFuel f₂ d := by
  intro f₁
  induction f₁ with
  | zero =>
    intro f₂ d h₁ _
    exact absurd h₁ (by have := dictSize_pos d; omega)
  | succ f₁ ih =>
    intro f₂ d h₁ h₂
    cases f₂ with
    | zero => exact absurd h₂ (by have := dictSize_pos d; omega)
    | succ f₂ =>
      simp only [leafCountFuel]
      congr 1
      refine mapCongrFn ?_
      intro p hp
      cases hp2 : p.2 with
      | leaf v => rfl
      | node cs =>
        have hlt : dictSize cs < dictSize d :=
          dictSize_lt_of_node_mem (by rw [← hp2]; exact hp)
        exact ih (by omega) (by omega)

theorem leafCount_eq (d : PyDict α) :
    leafCount d = (d.map fun p =>
      match p.2 with
      | NTree.leaf _ => 1
      | NTree.node cs => leafCount cs).sum := by
  unfold leafCount
  obtain ⟨f, hf⟩ : ∃ f, dictSize d = f + 1 :=
    ⟨dictSize d - 1, by have := dictSize_pos d; omega⟩
  rw [hf]
  simp only [leafCountFuel]
  congr 1
  refine mapCongrFn ?_
  intro p hp
  cases hp2 : p.2 with
  | leaf v => rfl
  | node cs =>
    have hlt : dictSize cs < dictSize d :=
      dictSize_lt_of_node_mem (by rw [← hp2]; exact hp)
    exact @leafCountFuel_congr _ f (dictSize cs) cs (by omega) (le_refl _)

theorem flatten_length_aux :
    ∀ (n : ℕ) (d : PyDict α), dictSize d ≤ n → ∀ path : List String,
      (flatten_dictionary d path).length = leafCount d := by
  intro n
  induction n with
  | zero =>
    intro d h
    exact absurd h (by have := dictSize_pos d; omega)
  | succ n ih =>
    intro d h path
    rw [flatten_eq, List.length_flatMap, leafCount_eq]
    have hperm : ((sortByKey d).map fun p =>
        (List.length ∘ fun p =>
          (match p.2 with
           | NTree.leaf v => [(path ++ [p.1], v)]
           | NTree.node cs => flatten_dictionary cs (path ++ [p.1]))) p).Perm
        (d.map fun p =>
          (List.length ∘ fun p =>
            (match p.2 with
             | NTree.leaf v => [(path ++ [p.1], v)]
             | NTree.node cs => flatten_dictionary cs (path ++ [p.1]))) p) :=
      (sortByKey_perm d).map _
    rw [hperm.sum_eq]
    congr 1
    refine mapCongrFn ?_
    intro p hp
    show (match p.2 with
          | NTree.leaf v => [(path ++ [p.1], v)]
          | NTree.node cs => flatten_dictionary cs (path ++ [p.1])).length =
      (match p.2 with
       | NTree.leaf _ => 1
       | NTree.node cs => leafCount cs)
    cases hp2 : p.2 with
    | leaf v => rfl
    | node cs =>
      have hlt : dictSize cs < dictSize d :=
        dictSize_lt_of_node_mem (by rw [← hp2]; exact hp)
      exact ih cs (by omega) (path ++ [p.1])

theorem flatten_length {d : PyDict α} (path : List String) :
    (flatten_dictionary d path).length = leafCount d :=
  flatten_length_aux (dictSize d) d (le_refl _) path

/-! Decimal rendering of integers and its parse round-trip, for the
time-codec claims. -/

/-- Decimal digit characters of a natural number, most significant
first; the fuel bounds the number of digits. -/
def natDigitsFuel : ℕ → ℕ → List Char
  | 0, _ => []
  | fuel + 1, n =>
    if n < 10 then [Char.ofNat (48 + n)]
    else natDigitsFuel fuel (n / 10) ++ [Char.ofNat (48 + n % 10)]

/-- Standard decimal rendering of a natural number. -/
def natDecimal (n : ℕ) : String := String.mk (natDigitsFuel (n + 1) n)

/-- Standard decimal rendering of an integer, with a leading minus sign
for negatives. -/
def intDecimal (i : ℤ) : String :=
  if i < 0 then "-" ++ natDecimal i.natAbs else natDecimal i.natAbs

theorem char_digit_toNat {m : ℕ} (h : m < 10) :
    (Char.ofNat (48 + m)).toNat = 48 + m := by
  interval_cases m <;> decide

theorem char_digit_isDigit {m : ℕ} (h : m < 10) :
    (Char.ofNat (48 + m)).isDigit = true := by
  interval_cases m <;> decide

theorem natDigitsFuel_all_digits :
    ∀ (fuel n : ℕ), (natDigitsFuel fuel n).all Char.isDigit = true := by
  intro fuel
  induction fuel with
  | zero => intro n; rfl
  | succ fuel ih =>
    intro n
    show (if n < 10 then [Char.ofNat (48 + n)]
          else natDigitsFuel fuel (n / 10) ++ [Char.ofNat (48 + n % 10)]).all
        Char.isDigit = true
    split
    case isTrue h => simp [char_digit_isDigit h]
    case isFalse h =>
      rw [List.all_append]
      simp [ih (n / 10), char_digit_isDigit (Nat.mod_lt n (by omega))]

theorem natDigitsFuel_ne_nil {fuel n : ℕ} (h : 1 ≤ fuel) :
    natDigitsFuel fuel n ≠ [] := by
  cases fuel with
  | zero => omega
  | succ fuel =>
    show (if n < 10 then [Char.ofNat (48 + n)]
          else natDigitsFuel fuel (n / 10) ++ [Char.ofNat (48 + n % 10)]) ≠ []
    split <;> simp

theorem natDigitsFuel_val :
    ∀ (fuel n : ℕ), n < 10 ^ fuel → 1 ≤ fuel →
      (natDigitsFuel fuel n).foldl (fun a c => a * 10 + (c.toNat - 48)) 0 = n := by
  intro fuel
  induction fuel with
  | zero => intro n _ h; omega
  | succ fuel ih =>
    intro n hn _
    show (if n < 10 then [Char.ofNat (48 + n)]
          else natDigitsFuel fuel (n / 10) ++ [Char.ofNat (48 + n % 10)]).foldl
        (fun a c => a * 10 + (c.toNat - 48)) 0 = n
    split
    case isTrue h =>
      simp [char_digit_toNat h]
    case isFalse h =>
      have hfuel : 1 ≤ fuel := by
        rcases Nat.eq_zero_or_pos fuel with rfl | hpos
        · simp at hn; omega
        · exact hpos
      have hdiv : n / 10 < 10 ^ fuel := by
        rw [pow_succ] at hn
        exact Nat.div_lt_of_lt_mul (by omega)
      rw [List.foldl_append, ih (n / 10) hdiv hfuel]
      simp only [List.foldl_cons, List.foldl_nil]
      rw [char_digit_toNat (Nat.mod_lt n (by omega))]
      omega

theorem parseDigits_natDigitsFuel {fuel n : ℕ} (hn : n < 10 ^ fuel)
    (hfuel : 1 ≤ fuel) : parseDigits (natDigitsFuel fuel n) = some n := by
  rw [parseDigits, if_pos ⟨natDigitsFuel_ne_nil hfuel, natDigitsFuel_all_digits fuel n⟩,
    natDigitsFuel_val fuel n hn hfuel]

theorem n_lt_ten_pow (n : ℕ) : n < 10 ^ (n + 1) :=
  lt_of_lt_of_le (Nat.lt_pow_self (by norm_num) n)
    (Nat.pow_le_pow_right (by norm_num) (by omega))

theorem parseDigits_natDecimal (n : ℕ) :
    parseDigits (natDecimal n).toList = some n :=
  parseDigits_natDigitsFuel (n_lt_ten_pow n) (by omega)

theorem toList_append (s t : String) : (s ++ t).toList = s.toList ++ t.toList :=
  String.data_append s t

theorem digit_not_ws {c : Char} (h : c.isDigit = true) :
    c.isWhitespace = false := by
  by_contra hws
  rw [Bool.not_eq_false, Char.isWhitespace] at hws
  simp only [Bool.or_eq_true, decide_eq_true_eq] at hws
  rcases hws with ((rfl | rfl) | rfl) | rfl <;> exact absurd h (by decide)

theorem stripWS_of_no_ws {l : List Char}
    (h : ∀ c ∈ l, c.isWhitespace = false) : stripWS l = l := by
  have hdrop : ∀ m : List Char, (∀ c ∈ m, c.isWhitespace = false) →
      m.dropWhile Char.isWhitespace = m := by
    intro m hm
    cases m with
    | nil => rfl
    | cons c rest =>
      rw [List.dropWhile_cons, hm c (List.mem_cons_self c rest)]
      simp
  rw [stripWS, hdrop _ h, hdrop, List.reverse_reverse]
  intro c hc
  exact h c (List.mem_reverse.mp hc)

theorem pyLong_digits {l : List Char} (hne : l ≠ [])
    (hd : l.all Char.isDigit = true) :
    pyLong l = some ((l.foldl (fun a c => a * 10 + (c.toNat - 48)) 0 : ℕ) : ℤ) := by
  have hnws : ∀ c ∈ l, c.isWhitespace = false := fun c hc =>
    digit_not_ws (by rw [List.all_eq_true] at hd; exact hd c hc)
  rw [pyLong, stripWS_of_no_ws hnws]
  cases l with
  | nil => exact absurd rfl hne
  | cons c rest =>
    have hc : c.isDigit = true := by
      rw [List.all_eq_true] at hd
      exact hd c (List.mem_cons_self c rest)
    split
    case h_1 r heq =>
      exfalso
      have : c = '-' := (List.cons.injEq _ _ _ _ ▸ heq).1
      rw [this] at hc
      exact absurd hc (by decide)
    case h_2 r heq =>
      exfalso
      have : c = '+' := (List.cons.injEq _ _ _ _ ▸ heq).1
      rw [this] at hc
      exact absurd hc (by decide)
    case h_3 =>
      rw [parseDigits, if_pos ⟨hne, hd⟩]
      rfl

theorem pyLong_natDecimal (n : ℕ) :
    pyLong (natDecimal n).toList = some (n : ℤ) := by
  have h1 := pyLong_digits (natDigitsFuel_ne_nil (n := n) (by omega))
    (natDigitsFuel_all_digits (n + 1) n)
  rw [natDecimal]
  show pyLong (natDigitsFuel (n + 1) n) = some (n : ℤ)
  rw [h1, natDigitsFuel_val (n + 1) n (n_lt_ten_pow n) (by omega)]

theorem pyLong_intDecimal (i : ℤ) :
    pyLong (intDecimal i).toList = some i := by
  rw [intDecimal]
  split
  case isTrue h =>
    have htl : ("-" ++ natDecimal i.natAbs).toList = '-' :: (natDecimal i.natAbs).toList := by
      rw [toList_append]
      rfl
    rw [htl, pyLong]
    have hnws : ∀ c ∈ '-' :: (natDecimal i.natAbs).toList, c.isWhitespace = false := by
      intro c hc
      rcases List.mem_cons.mp hc with rfl | hc'
      · decide
      · refine digit_not_ws ?_
        have := natDigitsFuel_all_digits (i.natAbs + 1) i.natAbs
        rw [List.all_eq_true] at this
        exact this c hc'
    rw [stripWS_of_no_ws hnws]
    show ((parseDigits (natDecimal i.natAbs).toList).map fun n => -(n : ℤ)) = some i
    rw [parseDigits_natDecimal]
    show some (-(i.natAbs : ℤ)) = some i
    congr 1
    omega
  case isFalse h =>
    rw [pyLong_natDecimal]
    congr 1
    omega

theorem splitOnDot_ne_nil (l : List Char) : splitOnDot l ≠ [] := by
  cases l with
  | nil => simp [splitOnDot]
  | cons c rest =>
    show (if c = '.' then [] :: splitOnDot rest
          else match splitOnDot rest with
               | [] => [[c]]
               | p :: ps => (c :: p) :: ps) ≠ []
    split
    · simp
    · split <;> simp

theorem splitOnDot_of_no_dot {l : List Char} (h : '.' ∉ l) :
    splitOnDot l = [l] := by
  induction l with
  | nil => rfl
  | cons c rest ih =>
    have hc : ¬(c = '.') := fun hc => h (hc ▸ List.mem_cons_self c rest)
    have hrest : '.' ∉ rest := fun hm => h (List.mem_cons_of_mem c hm)
    show (if c = '.' then [] :: splitOnDot rest
          else match splitOnDot rest with
               | [] => [[c]]
               | p :: ps => (c :: p) :: ps) = [c :: rest]
    rw [if_neg hc, ih hrest]

theorem splitOnDot_append {a b : List Char} (h : '.' ∉ a) :
    splitOnDot (a ++ '.' :: b) = a :: splitOnDot b := by
  induction a with
  | nil =>
    show (if ('.' : Char) = '.' then [] :: splitOnDot b
          else match splitOnDot b with
               | [] => [['.']]
               | p :: ps => ('.' :: p) :: ps) = [] :: splitOnDot b
    rw [if_pos rfl]
  | cons c a' ih =>
    have hc : ¬(c = '.') := fun hc => h (hc ▸ List.mem_cons_self c a')
    have ha' : '.' ∉ a' := fun hm => h (List.mem_cons_of_mem c hm)
    show (if c = '.' then [] :: splitOnDot (a' ++ '.' :: b)
          else match splitOnDot (a' ++ '.' :: b) with
               | [] => [[c]]
               | p :: ps => (c :: p) :: ps) = (c :: a') :: splitOnDot b
    rw [if_neg hc, ih ha']

theorem no_dot_of_digits {l : List Char} (hd : l.all Char.isDigit = true) :
    '.' ∉ l := by
  intro hmem
  rw [List.all_eq_true] at hd
  exact absurd (hd '.' hmem) (by decide)

theorem ceph_time_decimal (s : ℤ) (n : ℕ) :
    ceph_time_to_seconds (leafObj (.str (intDecimal s ++ "." ++ natDecimal n))) =
      .ok ((s : ℚ) + (n : ℚ) / (nsecPerSec : ℚ)) := by
  have hdigits : (natDecimal n).toList.all Char.isDigit = true :=
    natDigitsFuel_all_digits (n + 1) n
  have hno_dot_int : '.' ∉ (intDecimal s).toList := by
    rw [intDecimal]
    split
    · rw [toList_append]
      intro hmem
      rcases List.mem_append.mp hmem with hm | hm
      · exact absurd hm (by decide)
      · exact no_dot_of_digits (natDigitsFuel_all_digits _ _) hm
    · exact no_dot_of_digits (natDigitsFuel_all_digits _ _)
  have htl : (intDecimal s ++ "." ++ natDecimal n).toList =
      (intDecimal s).toList ++ '.' :: (natDecimal n).toList := by
    rw [toList_append, toList_append, List.append_assoc]
    rfl
  show (match (splitOnDot (intDecimal s ++ "." ++ natDecimal n).toList).map pyLong with
        | [some sec, some nsec] =>
          Except.ok (((sec * (nsecPerSec : ℤ) + nsec : ℤ) : ℚ) / (nsecPerSec : ℚ))
        | _ => Except.error PyErr.valueError) = _
  rw [htl, splitOnDot_append hno_dot_int,
    splitOnDot_of_no_dot (no_dot_of_digits hdigits)]
  simp only [List.map_cons, List.map_nil]
  rw [pyLong_intDecimal, pyLong_natDecimal]
  show Except.ok (((s * (nsecPerSec : ℤ) + (n : ℤ) : ℤ) : ℚ) / (nsecPerSec : ℚ)) = _
  congr 1
  have hK : (nsecPerSec : ℚ) ≠ 0 := by rw [nsecPerSec]; norm_num
  push_cast
  field_simp

theorem ceph_time_fails {str : String}
    (h : (splitOnDot str.toList).length ≠ 2 ∨
      ∃ part ∈ splitOnDot str.toList, pyLong part = none) :
    ceph_time_to_seconds (leafObj (.str str)) = .error .valueError := by
  show (match (splitOnDot str.toList).map pyLong with
        | [some sec, some nsec] =>
          Except.ok (((sec * (nsecPerSec : ℤ) + nsec : ℤ) : ℚ) / (nsecPerSec : ℚ))
        | _ => Except.error PyErr.valueError) = _
  rcases hsp : (splitOnDot str.toList).map pyLong with _ | ⟨o1, rest1⟩
  · rfl
  · cases rest1 with
    | nil =>
      cases o1 <;> rfl
    | cons o2 rest2 =>
      cases rest2 with
      | nil =>
        cases o1 with
        | none => rfl
        | some a =>
          cases o2 with
          | none => rfl
          | some b =>
            exfalso
            have hlen : (splitOnDot str.toList).length = 2 := by
              have := congrArg List.length hsp
              simpa using this
            rcases h with h | ⟨part, hpart, hnone⟩
            · exact h hlen
            · have : none ∈ (splitOnDot str.toList).map pyLong :=
                hnone ▸ List.mem_map_of_mem pyLong hpart
              rw [hsp] at this
              simp at this
      | cons o3 rest3 =>
        cases o1 <;> cases o2 <;> rfl

/-! Interpreter lemmas shared by the claim theorems. -/

theorem leaf_dispatch_longrunavg {u : List String} {pfx : String}
    {stats : PyDict PyVal} {path0 : List String} {ty : ℕ}
    (hlast : path0.getLast? = some "type")
    (h4 : ty &&& PERFCOUNTER_LONGRUNAVG ≠ 0) :
    publish_stats_leaf u pfx stats path0 ty =
      publish_longrunavg u pfx stats path0.dropLast ty := by
  unfold publish_stats_leaf
  rw [if_pos hlast, if_pos h4]

theorem binary_convert_int (n : ℤ) {u : String} {e : ℕ}
    (he : binaryUnitExponent u = some e) :
    binary_convert (leafObj (.int n)) u = .ok (.float ((n : ℚ) / 1024 ^ e)) := by
  unfold binary_convert leafObj
  rw [he]
  rfl

theorem get_byte_metrics_int {units : List String} {name : String} (n : ℤ)
    (hb : endsWithBytes name = true)
    (hu : ∀ u ∈ units, (binaryUnitExponent u).isSome) :
    get_byte_metrics units name (leafObj (.int n)) =
      .ok (units.map fun u =>
        (replace_bytes name u,
         PyVal.float ((n : ℚ) / 1024 ^ ((binaryUnitExponent u).getD 0)))) := by
  unfold get_byte_metrics
  rw [if_pos hb]
  induction units with
  | nil => rfl
  | cons u us ih =>
    obtain ⟨e, he⟩ := Option.isSome_iff_exists.mp (hu u (List.mem_cons_self u us))
    have hconv := binary_convert_int n he
    show mapExcept _ (u :: us) = _
    unfold mapExcept
    rw [hconv]
    rw [ih fun w hw => hu w (List.mem_cons_of_mem u hw)]
    simp [Except.map, he]

theorem longrunavg_average_int_int (s c : ℤ) :
    longrunavg_average (leafObj (.int s)) (leafObj (.int c)) =
      .ok (if c = 0 then PyVal.float 0 else PyVal.int (Int.fdiv s c)) := by
  unfold longrunavg_average pyTruthy leafObj
  by_cases hc : c = 0
  · rw [if_pos hc]
    simp [hc]
  · rw [if_neg hc]
    have : (c != 0) = true := by simpa using hc
    simp only [this]
    rw [if_pos trivial]
    rfl

theorem longrunavg_average_float_int (q : ℚ) (c : ℤ) :
    longrunavg_average (leafObj (.float q)) (leafObj (.int c)) =
      .ok (if c = 0 then PyVal.float 0 else PyVal.float (q / (c : ℚ))) := by
  unfold longrunavg_average pyTruthy leafObj
  by_cases hc : c = 0
  · rw [if_pos hc]
    simp [hc]
  · rw [if_neg hc]
    have : (c != 0) = true := by simpa using hc
    simp only [this]
    rw [if_pos trivial]
    rfl

theorem fdiv_floor (s : ℤ) (c : ℕ) (_hc : 0 < c) :
    Int.fdiv s (c : ℤ) = ⌊(s : ℚ) / (c : ℚ)⌋ := by
  rw [Int.fdiv_eq_ediv s (by exact_mod_cast c.zero_le)]
  rw [Rat.floor_intCast_div_natCast s c]

theorem publish_longrunavg_gauges {u : List String} {pfx : String}
    {stats : PyDict PyVal} {path : List String} {ty : ℕ} {out : Output}
    (hok : publish_longrunavg u pfx stats path ty = .ok out) :
    ∀ m ∈ out.metrics, m.isCounter = false := by
  unfold publish_longrunavg at hok
  split at hok
  · exact absurd hok (by simp)
  · split at hok
    · exact absurd hok (by simp)
    · split at hok
      · exact absurd hok (by simp)
      · split at hok
        · exact absurd hok (by simp)
        · split at hok
          · exact absurd hok (by simp)
          · split at hok
            · -- TIME branch: a single gauge
              obtain rfl : _ = out := Except.ok.inj hok
              intro m hm
              rcases List.mem_singleton.mp hm with rfl
              rfl
            · split at hok
              · -- U64 branch
                split at hok
                · exact absurd hok (by simp)
                · obtain rfl : _ = out := Except.ok.inj hok
                  intro m hm
                  obtain ⟨p, _, rfl⟩ := List.mem_map.mp hm
                  rfl
              · -- unexpected-type branch: no metrics
                obtain rfl : _ = out := Except.ok.inj hok
                intro m hm
                cases hm

/-! The claims. -/

/-- Claim C7: for every integer seconds s and nanosecond remainder n
with 0 ≤ n < 10^9, the time conversion applied to the string
"&lt;s&gt;.&lt;n&gt;" (intDecimal s, a dot, natDecimal n) returns
s + n / 10^9 — the conversion goes through integer arithmetic on the
nanosecond remainder and is exact over ℚ, hence certainly within
floating-point tolerance; and the conversion fails (ValueError, the
FormatError of the spec) for every input string that does not split on
"." into exactly two components accepted by Python long(). -/
theorem claim_C7 :
    (∀ (s : ℤ) (n : ℕ), n < nsecPerSec →
      ceph_time_to_seconds (leafObj (.str (intDecimal s ++ "." ++ natDecimal n))) =
        .ok ((s : ℚ) + (n : ℚ) / (nsecPerSec : ℚ))) ∧
    (∀ str : String,
      ((splitOnDot str.toList).length ≠ 2 ∨
        ∃ part ∈ splitOnDot str.toList, pyLong part = none) →
      ceph_time_to_seconds (leafObj (.str str)) = .error .valueError) :=
  ⟨fun s n _ => ceph_time_decimal s n, fun _ h => ceph_time_fails h⟩

/-- Witness for claim C7: the conversion at "5.500000000" yields
5 + 500000000/10^9 (that is, 5.5), and "garbage" fails. -/
theorem claim_C7_witness :
    ceph_time_to_seconds (leafObj (.str "5.500000000")) =
      .ok ((5 : ℚ) + (500000000 : ℚ) / (nsecPerSec : ℚ)) ∧
    ceph_time_to_seconds (leafObj (.str "garbage")) = .error .valueError := by
  constructor
  · have h := claim_C7.1 5 500000000 (by norm_num [nsecPerSec])
    have hs : intDecimal 5 ++ "." ++ natDecimal 500000000 = "5.500000000" := rfl
    rwa [hs] at h
  · refine claim_C7.2 "garbage" (Or.inl ?_)
    decide

/-- Claim C8: for every well-formed nested mapping and every index i
into its flattened sequence, looking the i-th yielded key path up in
the same mapping returns exactly the i-th yielded value (wrapped as the
leaf that stores it). -/
theorem claim_C8 {α : Type} (d : PyDict α) (hwf : WFDict d) (i : ℕ)
    (hi : i < (flatten_dictionary d ([] : List String)).length) :
    lookup_dict_path d ((flatten_dictionary d ([] : List String)).get ⟨i, hi⟩).1 [] =
      .ok (some (.leaf ((flatten_dictionary d ([] : List String)).get ⟨i, hi⟩).2)) :=
  flatten_lookup hwf (List.get_mem _ _ hi)

/-- Witness for claim C8 on the two-leaf tree of the source's doc
comment: index 0 flattens to (["a","b"], 10) and looking ["a","b"] up
returns 10. -/
theorem claim_C8_witness :
    WFDict [("c", NTree.leaf (20 : ℕ)), ("a", NTree.node [("b", NTree.leaf 10)])] ∧
    lookup_dict_path [("c", NTree.leaf (20 : ℕ)), ("a", NTree.node [("b", NTree.leaf 10)])]
      ["a", "b"] [] = .ok (some (.leaf 10)) := by
  constructor
  · decide
  · have h0 : (0 : ℕ) < (flatten_dictionary
        [("c", NTree.leaf (20 : ℕ)), ("a", NTree.node [("b", NTree.leaf 10)])]
        ([] : List String)).length := by decide
    exact claim_C8 _ (by decide) 0 h0

/-- Claim C9: flattening a well-formed nested mapping yields one (key
path, value) pair per leaf (the length equals the leaf count), in
depth-first order sorted lexicographically by key name at every level
(the sequence of paths is pairwise in strictly increasing lexicographic
order), and the empty mapping yields the empty sequence.  Determinism
and the independence of each yielded path (the source's path[:] copy)
are inherent in the embedding: flatten_dictionary is a pure function on
immutable lists. -/
theorem claim_C9 {α : Type} (d : PyDict α) (hwf : WFDict d) :
    (flatten_dictionary d ([] : List String)).length = leafCount d ∧
    ((flatten_dictionary d ([] : List String)).map Prod.fst).Pairwise
      (List.Lex (· < ·)) ∧
    flatten_dictionary ([] : PyDict α) [] = [] :=
  ⟨@flatten_length α d [], flatten_sorted hwf [], rfl⟩

/-- Witness for claim C9 at the two-leaf tree of the source's doc
comment. -/
theorem claim_C9_witness :
    WFDict [("c", NTree.leaf (20 : ℕ)), ("a", NTree.node [("b", NTree.leaf 10)])] ∧
    ((flatten_dictionary [("c", NTree.leaf (20 : ℕ)),
        ("a", NTree.node [("b", NTree.leaf 10)])] ([] : List String)).length =
      leafCount [("c", NTree.leaf (20 : ℕ)), ("a", NTree.node [("b", NTree.leaf 10)])] ∧
      ((flatten_dictionary [("c", NTree.leaf (20 : ℕ)),
        ("a", NTree.node [("b", NTree.leaf 10)])] ([] : List String)).map
          Prod.fst).Pairwise (List.Lex (· < ·)) ∧
      flatten_dictionary ([] : PyDict ℕ) [] = []) :=
  ⟨by decide, claim_C9 _ (by decide)⟩

/-- The byte-metric name as the spec's words describe it: the trailing
"bytes" suffix — and only the suffix — replaced by the unit symbol.
Declared solely to compare the specified name against the one the code
builds. -/
def spec_byte_name (name unit : String) : String :=
  String.mk (name.toList.take (name.toList.length - 5) ++ unit.toList)

/-- Counterexample to claim C2 as stated: for the metric name
"bytes_bytes" (which ends with "bytes") and the single configured unit
kilobyte, the code renames with str.replace, which replaces every
occurrence of "bytes", producing "kilobyte_kilobyte"; the name with
only the suffix replaced would be "bytes_kilobyte". -/
theorem claim_C2_counterexample :
    get_byte_metrics ["kilobyte"] "bytes_bytes" (leafObj (.int 2048)) =
      .ok [("kilobyte_kilobyte", .float (((2048 : ℤ) : ℚ) / 1024 ^ 1))] ∧
    spec_byte_name "bytes_bytes" "kilobyte" = "bytes_kilobyte" ∧
    ("kilobyte_kilobyte" : String) ≠ "bytes_kilobyte" :=
  ⟨rfl, rfl, by decide⟩

/-- Claim C2 as amended: for every metric name ending in "bytes" and
every configured ordered list of known units, the expansion yields
exactly one (name', value') pair per configured unit, in the configured
order, where name' is the input name with every occurrence of the
substring "bytes" replaced by the unit symbol (when "bytes" occurs only
as the suffix this is exactly suffix replacement) and value' is the
byte value scaled by the unit's power of 1024; no unit outside the
configured list is ever emitted (the output is exactly the map over the
configured list). -/
theorem claim_C2 (name : String) (units : List String) (n : ℤ)
    (hb : endsWithBytes name = true)
    (hu : ∀ u ∈ units, (binaryUnitExponent u).isSome) :
    get_byte_metrics units name (leafObj (.int n)) =
      .ok (units.map fun u =>
        (replace_bytes name u,
         PyVal.float ((n : ℚ) / 1024 ^ ((binaryUnitExponent u).getD 0)))) :=
  get_byte_metrics_int n hb hu

/-- Witness for claim C2 as amended, matching the spec's own example
shape: expanding "osd.read_bytes" with value 1048576 over the units
byte, kilobyte, megabyte. -/
theorem claim_C2_witness :
    get_byte_metrics ["byte", "kilobyte", "megabyte"] "osd.read_bytes"
      (leafObj (.int 1048576)) =
    .ok [("osd.read_byte", .float (((1048576 : ℤ) : ℚ) / 1024 ^ 0)),
         ("osd.read_kilobyte", .float (((1048576 : ℤ) : ℚ) / 1024 ^ 1)),
         ("osd.read_megabyte", .float (((1048576 : ℤ) : ℚ) / 1024 ^ 2))] :=
  claim_C2 "osd.read_bytes" ["byte", "kilobyte", "megabyte"] 1048576 rfl
    (by decide)

/-- Claim C4: a schema leaf whose bitmask has U64 and COUNTER set but
not LONGRUNAVG and not TIME, whose built metric name ends in "bytes"
and whose stats value is an integer, emits exactly one counter at
2-decimal precision per configured (known) byte unit, and no gauges. -/
theorem claim_C4 (units : List String) (pfx : String) (stats : PyDict PyVal)
    (path0 : List String) (ty : ℕ) (v : ℤ)
    (hU : ty &&& PERFCOUNTER_U64 ≠ 0)
    (hC : ty &&& PERFCOUNTER_COUNTER ≠ 0)
    (hL : ty &&& PERFCOUNTER_LONGRUNAVG = 0)
    (hT : ty &&& PERFCOUNTER_TIME = 0)
    (hlast : path0.getLast? = some "type")
    (hlook : lookup_dict_path stats path0.dropLast [] = .ok (leafObj (.int v)))
    (hb : endsWithBytes (buildName pfx path0.dropLast) = true)
    (hu : ∀ u ∈ units, (binaryUnitExponent u).isSome) :
    publish_stats_leaf units pfx stats path0 ty =
      .ok ⟨units.map fun u =>
        Metric.counter (replace_bytes (buildName pfx path0.dropLast) u)
          (leafObj (.float ((v : ℚ) / 1024 ^ ((binaryUnitExponent u).getD 0)))) 2,
        []⟩ := by
  unfold publish_stats_leaf
  rw [if_pos hlast, if_neg (by simpa using hL), hlook]
  simp only []
  rw [if_neg (by simpa using hT), if_pos hU, if_pos hb,
    get_byte_metrics_int v hb hu]
  simp only [Except.map]
  rw [show (fun p : String × PyObj =>
        if ty &&& PERFCOUNTER_COUNTER ≠ 0 then Metric.counter p.1 p.2 2
        else Metric.gauge p.1 p.2 2) =
      (fun p : String × PyObj => Metric.counter p.1 p.2 2) from
    funext fun p => if_pos hC]
  rw [List.map_map, List.map_map]
  rfl

/-- Witness for claim C4: a U64|COUNTER (bitmask 10) leaf named x_bytes
with value 2048 and units byte, kilobyte emits exactly the two counters
at 2 decimals. -/
theorem claim_C4_witness :
    publish_stats_leaf ["byte", "kilobyte"] "" [("x_bytes", NTree.leaf (.int 2048))]
      ["x_bytes", "type"] 10 =
    .ok ⟨[Metric.counter "x_byte" (leafObj (.float (((2048 : ℤ) : ℚ) / 1024 ^ 0))) 2,
          Metric.counter "x_kilobyte" (leafObj (.float (((2048 : ℤ) : ℚ) / 1024 ^ 1))) 2],
         []⟩ :=
  claim_C4 ["byte", "kilobyte"] "" [("x_bytes", NTree.leaf (.int 2048))]
    ["x_bytes", "type"] 10 2048 (by decide) (by decide) (by decide) (by decide)
    rfl rfl rfl (by decide)

/-- Claim C10: every metric a leaf with the LONGRUNAVG bit set emits is
a gauge, never a counter, whatever the other bits (the COUNTER bit is
ignored by the long-running-average branch). -/
theorem claim_C10 (units : List String) (pfx : String) (stats : PyDict PyVal)
    (path0 : List String) (ty : ℕ) (out : Output)
    (h4 : ty &&& PERFCOUNTER_LONGRUNAVG ≠ 0)
    (hok : publish_stats_leaf units pfx stats path0 ty = .ok out) :
    ∀ m ∈ out.metrics, m.isCounter = false := by
  unfold publish_stats_leaf at hok
  by_cases hlast : path0.getLast? = some "type"
  · rw [if_pos hlast, if_pos h4] at hok
    exact publish_longrunavg_gauges hok
  · rw [if_neg hlast] at hok
    exact absurd hok (by simp)

/-- Witness for claim C10: a TIME|LONGRUNAVG|COUNTER leaf (bitmask 13)
emits one gauge, and that emission is not a counter even though the
COUNTER bit is set. -/
theorem claim_C10_witness :
    (Metric.gauge "p.avg_a" (leafObj (.float
        ((((2 * (nsecPerSec : ℤ) + 500000000 : ℤ) : ℚ) / (nsecPerSec : ℚ)) /
          ((5 : ℤ) : ℚ)))) 6).isCounter = false :=
  claim_C10 [] "p"
    [("a", NTree.node [("sum", NTree.leaf (.str "2.500000000")),
                       ("avgcount", NTree.leaf (.int 5))])]
    ["a", "type"] 13 _ (by decide) rfl _ (List.mem_cons_self _ _)

/-- Counterexample to claim C3 as stated: a U64|LONGRUNAVG leaf
(bitmask 6) with stats sum 3 and avgcount 2 emits the gauge value 1 —
Python 2 floor division of two longs — not the exact quotient 3/2 that
the claim's "sum / avgcount" denotes. -/
theorem claim_C3_counterexample :
    publish_stats_leaf [] ""
      [("a", NTree.node [("sum", NTree.leaf (.int 3)),
                         ("avgcount", NTree.leaf (.int 2))])]
      ["a", "type"] 6 =
      .ok ⟨[Metric.gauge "avg_a" (leafObj (.int 1)) 2], []⟩ ∧
    ((1 : ℚ) ≠ (3 : ℚ) / 2) :=
  ⟨rfl, by norm_num⟩

/-- Claim C3 as amended: for every schema leaf with the LONGRUNAVG bit
set (whatever the other bits), the long-running-average rule is applied
in preference to the plain TIME/U64 handling, and the derived value is
0.0 when avgcount is zero (never an error, and never NaN — the model is
exact rational arithmetic) and otherwise equals sum / avgcount under
the source's Python 2 division: floor division Int.fdiv when both
operands are longs — which for a positive count is the floor of the
exact quotient — and exact division when the sum is a float (as after
TIME conversion). -/
theorem claim_C3 :
    (∀ (u : List String) (pfx : String) (stats : PyDict PyVal)
        (path0 : List String) (ty : ℕ),
      ty &&& PERFCOUNTER_LONGRUNAVG ≠ 0 → path0.getLast? = some "type" →
      publish_stats_leaf u pfx stats path0 ty =
        publish_longrunavg u pfx stats path0.dropLast ty) ∧
    (∀ s c : ℤ, longrunavg_average (leafObj (.int s)) (leafObj (.int c)) =
        .ok (if c = 0 then PyVal.float 0 else PyVal.int (Int.fdiv s c))) ∧
    (∀ (q : ℚ) (c : ℤ), longrunavg_average (leafObj (.float q)) (leafObj (.int c)) =
        .ok (if c = 0 then PyVal.float 0 else PyVal.float (q / (c : ℚ)))) ∧
    (∀ (s : ℤ) (c : ℕ), 0 < c → Int.fdiv s (c : ℤ) = ⌊(s : ℚ) / (c : ℚ)⌋) :=
  ⟨fun _ _ _ _ _ h4 hlast => leaf_dispatch_longrunavg hlast h4,
   longrunavg_average_int_int, longrunavg_average_float_int, fdiv_floor⟩

/-- Witness for claim C3 as amended: the dispatch at a concrete
LONGRUNAVG leaf, the averages 3/2 → 1 (floor), 3/0 → 0.0, (5/2)/5
(float case), and the floor characterization of fdiv at 7/2. -/
theorem claim_C3_witness :
    publish_stats_leaf [] ""
      [("a", NTree.node [("sum", NTree.leaf (.int 3)),
                         ("avgcount", NTree.leaf (.int 2))])]
      ["a", "type"] 6 =
      publish_longrunavg [] ""
        [("a", NTree.node [("sum", NTree.leaf (.int 3)),
                           ("avgcount", NTree.leaf (.int 2))])]
        ["a"] 6 ∧
    longrunavg_average (leafObj (.int 3)) (leafObj (.int 2)) = .ok (.int 1) ∧
    longrunavg_average (leafObj (.int 3)) (leafObj (.int 0)) = .ok (.float 0) ∧
    longrunavg_average (leafObj (.float (5 / 2))) (leafObj (.int 5)) =
      .ok (.float (5 / 2 / ((5 : ℤ) : ℚ))) ∧
    Int.fdiv 7 2 = ⌊(7 : ℚ) / 2⌋ := by
  refine ⟨claim_C3.1 [] "" _ ["a", "type"] 6 (by decide) rfl, ?_, ?_, ?_,
    claim_C3.2.2.2 7 2 (by decide)⟩
  · have h := claim_C3.2.1 3 2
    rw [if_neg (by decide)] at h
    exact h
  · have h := claim_C3.2.1 3 0
    rw [if_pos rfl] at h
    exact h
  · have h := claim_C3.2.2.1 (5 / 2) 5
    rw [if_neg (by decide)] at h
    exact h

/-- Claim C5: a schema leaf whose bitmask has neither TIME nor U64 set
emits no metric and raises no error — it is logged and skipped — and
interpretation continues with the remaining schema leaves, whose
metrics are preserved.  The first conjunct covers the
long-running-average branch (LONGRUNAVG also set, integer sum and
count present in stats), the second the plain branch (LONGRUNAVG
clear, any successful lookup), the third that an ok leaf lets the loop
continue over the rest with its output prepended. -/
theorem claim_C5 :
    (∀ (u : List String) (pfx : String) (stats : PyDict PyVal)
        (path0 : List String) (ty : ℕ) (s c : ℤ),
      ty &&& PERFCOUNTER_TIME = 0 → ty &&& PERFCOUNTER_U64 = 0 →
      ty &&& PERFCOUNTER_LONGRUNAVG ≠ 0 →
      path0.getLast? = some "type" → path0.dropLast ≠ [] →
      lookup_dict_path stats path0.dropLast ["sum"] = .ok (leafObj (.int s)) →
      lookup_dict_path stats path0.dropLast ["avgcount"] = .ok (leafObj (.int c)) →
      ∃ msg, publish_stats_leaf u pfx stats path0 ty = .ok ⟨[], [msg]⟩) ∧
    (∀ (u : List String) (pfx : String) (stats : PyDict PyVal)
        (path0 : List String) (ty : ℕ) (v : PyObj),
      ty &&& PERFCOUNTER_TIME = 0 → ty &&& PERFCOUNTER_U64 = 0 →
      ty &&& PERFCOUNTER_LONGRUNAVG = 0 →
      path0.getLast? = some "type" →
      lookup_dict_path stats path0.dropLast [] = .ok v →
      ∃ msg, publish_stats_leaf u pfx stats path0 ty = .ok ⟨[], [msg]⟩) ∧
    (∀ (u : List String) (pfx : String) (stats : PyDict PyVal)
        (path0 : List String) (ty : ℕ) (o1 : Output)
        (rest : List (List String × ℕ)),
      publish_stats_leaf u pfx stats path0 ty = .ok o1 →
      processLeaves u pfx stats ((path0, ty) :: rest) =
        (o1 ++ (processLeaves u pfx stats rest).1,
         (processLeaves u pfx stats rest).2)) := by
  refine ⟨?_, ?_, ?_⟩
  · intro u pfx stats path0 ty s c h1 h2 h4 hlast hne hsum hcount
    rw [leaf_dispatch_longrunavg hlast h4]
    unfold publish_longrunavg
    rw [hsum, hcount]
    simp only []
    rw [if_neg (by simpa using h1)]
    simp only []
    rw [longrunavg_average_int_int]
    simp only []
    obtain ⟨z, hz⟩ : ∃ z, path0.dropLast.getLast? = some z := by
      cases hgl : path0.dropLast.getLast? with
      | none => exact absurd (List.getLast?_eq_none_iff.mp hgl) hne
      | some z => exact ⟨z, rfl⟩
    rw [hz]
    simp only []
    rw [if_neg (by simpa using h1), if_neg (by simpa using h2)]
    exact ⟨_, rfl⟩
  · intro u pfx stats path0 ty v h1 h2 h4 hlast hlook
    unfold publish_stats_leaf
    rw [if_pos hlast, if_neg (by simpa using h4), hlook]
    simp only []
    rw [if_neg (by simpa using h1), if_neg (by simpa using h2)]
    exact ⟨_, rfl⟩
  · intro u pfx stats path0 ty o1 rest hok
    have hstep : processLeaves u pfx stats ((path0, ty) :: rest) =
        (match publish_stats_leaf u pfx stats path0 ty with
         | Except.error e => ((⟨[], []⟩ : Output), some e)
         | Except.ok o1 =>
           (o1 ++ (processLeaves u pfx stats rest).1,
            (processLeaves u pfx stats rest).2)) := rfl
    rw [hstep, hok]

/-- Witness for claim C5: a COUNTER-only leaf (bitmask 8, neither TIME
nor U64) in the plain branch, a LONGRUNAVG|COUNTER leaf (bitmask 12) in
the average branch, and the loop continuing past an ok leaf. -/
theorem claim_C5_witness :
    (∃ msg, publish_stats_leaf [] "" [("a", NTree.leaf (.int 7))]
      ["a", "type"] 8 = .ok ⟨[], [msg]⟩) ∧
    (∃ msg, publish_stats_leaf [] ""
      [("a", NTree.node [("sum", NTree.leaf (.int 3)),
                         ("avgcount", NTree.leaf (.int 2))])]
      ["a", "type"] 12 = .ok ⟨[], [msg]⟩) ∧
    processLeaves [] "" [("a", NTree.leaf (.int 7)), ("b", NTree.leaf (.int 3))]
      [(["a", "type"], 8), (["b", "type"], 2)] =
      ((⟨[], ["Unexpected metric type: a/8"]⟩ : Output) ++
        (processLeaves [] "" [("a", NTree.leaf (.int 7)), ("b", NTree.leaf (.int 3))]
          [(["b", "type"], 2)]).1,
       (processLeaves [] "" [("a", NTree.leaf (.int 7)), ("b", NTree.leaf (.int 3))]
          [(["b", "type"], 2)]).2) := by
  refine ⟨?_, ?_, ?_⟩
  · exact claim_C5.2.1 [] "" _ ["a", "type"] 8 (leafObj (.int 7)) (by decide)
      (by decide) (by decide) rfl rfl
  · exact claim_C5.1 [] "" _ ["a", "type"] 12 3 2 (by decide) (by decide)
      (by decide) rfl (by decide) rfl rfl
  · exact claim_C5.2.2 [] "" _ ["a", "type"] 8 _ [(["b", "type"], 2)] rfl

/-- Claim C6: a schema leaf tagged TIME|LONGRUNAVG (bitmask 5) whose
stats subtree is {sum: "2.500000000", avgcount: 5} emits exactly one
gauge named after the leaf's path with the trailing segment renamed to
avg_&lt;original&gt;, with value 0.5, at 6-decimal precision. -/
theorem claim_C6 (u : List String) (pfx : String) (stats : PyDict PyVal)
    (base : List String) (nm : String)
    (hsum : lookup_dict_path stats (base ++ [nm]) ["sum"] =
      .ok (leafObj (.str "2.500000000")))
    (hcount : lookup_dict_path stats (base ++ [nm]) ["avgcount"] =
      .ok (leafObj (.int 5))) :
    publish_stats_leaf u pfx stats (base ++ [nm, "type"]) 5 =
      .ok ⟨[Metric.gauge (buildName pfx (base ++ ["avg_" ++ nm]))
              (leafObj (.float (1 / 2))) 6], []⟩ := by
  have hsplit : base ++ [nm, "type"] = (base ++ [nm]) ++ ["type"] := by simp
  rw [hsplit, leaf_dispatch_longrunavg (List.getLast?_concat _) (by decide),
    List.dropLast_concat]
  unfold publish_longrunavg
  rw [hsum, hcount]
  simp only []
  rw [if_pos (by decide)]
  have ht : ceph_time_to_seconds (leafObj (.str "2.500000000")) =
      .ok ((5 : ℚ) / 2) := by
    have h0 : ceph_time_to_seconds (leafObj (.str "2.500000000")) =
        .ok (((2 * (nsecPerSec : ℤ) + 500000000 : ℤ) : ℚ) / (nsecPerSec : ℚ)) := rfl
    rw [h0]
    congr 1
    rw [nsecPerSec]
    norm_num
  rw [ht]
  simp only [Except.map]
  rw [longrunavg_average_float_int, if_neg (by decide)]
  simp only []
  rw [List.getLast?_concat]
  simp only []
  rw [if_pos (by decide), List.dropLast_concat]
  have hval : (5 : ℚ) / 2 / ((5 : ℤ) : ℚ) = 1 / 2 := by
    push_cast
    norm_num
  rw [hval]

/-- Witness for claim C6 at a concrete source: prefix "ceph", leaf path
osd.lat, the single gauge ceph.osd.avg_lat = 0.5 at 6 decimals. -/
theorem claim_C6_witness :
    publish_stats_leaf [] "ceph"
      [("osd", NTree.node [("lat", NTree.node
        [("avgcount", NTree.leaf (.int 5)),
         ("sum", NTree.leaf (.str "2.500000000"))])])]
      ["osd", "lat", "type"] 5 =
      .ok ⟨[Metric.gauge "ceph.osd.avg_lat" (leafObj (.float (1 / 2))) 6], []⟩ :=
  claim_C6 [] "ceph" _ ["osd"] "lat" rfl rfl

/-- Counterexample to claim C1 as stated: a schema holding the TIME
leaf a (whose stats string "garbage" is malformed) and the well-formed
U64 leaf b emits nothing at all — the ValueError aborts the whole
source — although leaf b alone would emit its gauge (second
conjunct). -/
theorem claim_C1_counterexample :
    publish_stats [] "" [("a", NTree.leaf (.str "garbage")), ("b", NTree.leaf (.int 3))]
      [("a", NTree.node [("type", NTree.leaf 1)]),
       ("b", NTree.node [("type", NTree.leaf 2)])] =
      (⟨[], []⟩, some .valueError) ∧
    publish_stats [] "" [("b", NTree.leaf (.int 3))]
      [("b", NTree.node [("type", NTree.leaf 2)])] =
      (⟨[Metric.gauge "b" (leafObj (.int 3)) 2], []⟩, none) :=
  ⟨rfl, rfl⟩

/-- Claim C1 as amended: a malformed time string makes the conversion of
that leaf raise ValueError (the spec's FormatError), and the exception
propagates uncaught: interpretation of the whole source is aborted at
that leaf, the remaining schema leaves are not processed, and their
metrics are not emitted (the loop result carries the pending exception
and nothing from the rest). -/
theorem claim_C1 :
    (∀ (u : List String) (pfx : String) (stats : PyDict PyVal)
        (path0 : List String) (ty : ℕ) (v : PyObj),
      ty &&& PERFCOUNTER_LONGRUNAVG = 0 → ty &&& PERFCOUNTER_TIME ≠ 0 →
      path0.getLast? = some "type" →
      lookup_dict_path stats path0.dropLast [] = .ok v →
      ceph_time_to_seconds v = .error .valueError →
      publish_stats_leaf u pfx stats path0 ty = .error .valueError) ∧
    (∀ (u : List String) (pfx : String) (stats : PyDict PyVal)
        (path0 : List String) (ty : ℕ) (rest : List (List String × ℕ)) (e : PyErr),
      publish_stats_leaf u pfx stats path0 ty = .error e →
      processLeaves u pfx stats ((path0, ty) :: rest) = (⟨[], []⟩, some e)) := by
  constructor
  · intro u pfx stats path0 ty v hL hT hlast hlook htime
    unfold publish_stats_leaf
    rw [if_pos hlast, if_neg (by simpa using hL), hlook]
    simp only []
    rw [if_pos hT, htime]
  · intro u pfx stats path0 ty rest e hok
    unfold processLeaves
    rw [hok]

/-- Witness for claim C1 as amended: the TIME leaf a with stats
"garbage" fails with ValueError, and with a further leaf b after it the
loop stops with the pending ValueError and no output. -/
theorem claim_C1_witness :
    publish_stats_leaf [] "" [("a", NTree.leaf (.str "garbage"))]
      ["a", "type"] 1 = .error .valueError ∧
    processLeaves [] "" [("a", NTree.leaf (.str "garbage"))]
      [(["a", "type"], 1), (["b", "type"], 2)] = (⟨[], []⟩, some .valueError) := by
  constructor
  · exact claim_C1.1 [] "" _ ["a", "type"] 1 _ (by decide) (by decide) rfl rfl rfl
  · exact claim_C1.2 [] "" _ ["a", "type"] 1 [(["b", "type"], 2)] .valueError
      (claim_C1.1 [] "" _ ["a", "type"] 1 _ (by decide) (by decide) rfl rfl rfl)

end CephModel
